import Mathlib

/-!
Verification of `pybatchdict` (`src/pybatchdict/batch.py`).

The Python module expands a "templated" nested dictionary into the list of
all concrete dictionaries implied by embedded iteration markers (`@id` keys)
and `@range(...)` values.

Two embeddings are developed here:

* a functional embedding (`PyVal`), in which Python dictionaries are
  insertion-ordered association lists and every operation returns a value
  (`Except PyErr` models raised exceptions).  CPython 2 dictionaries
  enumerate their keys in an unspecified hash-based order; the embedding
  fixes the one deterministic order available to a value-level model,
  insertion order.
* a heap embedding (`HV`/`Heap`), in which dictionaries are mutable cells
  addressed by natural numbers, used for the claims about in-place
  mutation and aliasing which a value-level model cannot express.

Both embeddings translate the same Python source line by line; the
combinatorial core (`pathcombos`) is written once, generically over the
value type, and instantiated for both.
-/

namespace Pybatch

/-- The Python exceptions that the translated code can raise. -/
inductive PyErr where
  | attributeError
  | keyError
  | typeError
  | indexError
  | valueError
  | zeroDivisionError
  | recursionError
  deriving DecidableEq, Repr

/-- A Python value as used by `batch.py`: scalars, lists and (insertion
ordered) dictionaries with string keys.  `none` is Python's `None`. -/
inductive PyVal where
  | int (n : Int)
  | float (q : Rat)
  | str (s : String)
  | none
  | list (l : List PyVal)
  | dict (kvs : List (String × PyVal))

/-- First-match lookup in an association list (Python `d[k]` / `d.get(k)`). -/
def assocGet? {κ α : Type _} [DecidableEq κ] : List (κ × α) → κ → Option α
  | [], _ => Option.none
  | (k', v) :: rest, k => if k' = k then some v else assocGet? rest k

/-- Lookup with default (Python `d.get(k, dflt)`). -/
def assocGetD {κ α : Type _} [DecidableEq κ] (l : List (κ × α)) (k : κ) (dflt : α) : α :=
  (assocGet? l k).getD dflt

/-- Python `d[k] = v` on an insertion-ordered dictionary: overwrite the value
in place if the key is present, otherwise append the new pair. -/
def assocSet {κ α : Type _} [DecidableEq κ] : List (κ × α) → κ → α → List (κ × α)
  | [], k, v => [(k, v)]
  | (k', v') :: rest, k, v =>
      if k' = k then (k', v) :: rest else (k', v') :: assocSet rest k v

/-- Python `str.split(sep)` for a one-character separator, over a character
list; `acc` is the (reversed) pending token. -/
def splitAux (sep : Char) : List Char → List Char → List (List Char)
  | [], acc => [acc.reverse]
  | c :: cs, acc =>
      if c = sep then acc.reverse :: splitAux sep cs [] else splitAux sep cs (c :: acc)

/-- Python `s.split(sep)` for a one-character separator: `''.split('/') = ['']`,
`'/'.split('/') = ['', '']`, `'a/b'.split('/') = ['a', 'b']`. -/
def pySplit (sep : Char) (s : String) : List String :=
  (splitAux sep s.toList []).map String.mk

/-- Effectful `List.map` over `Except`, written recursively so that proofs can
proceed by structural induction (Python `for` loops that accumulate a list). -/
def mapE {α β : Type _} (f : α → Except PyErr β) : List α → Except PyErr (List β)
  | [] => .ok []
  | a :: l => do
      let b ← f a
      let bs ← mapE f l
      .ok (b :: bs)

/-- Inner loop of `getkeypath` (`batch.py` lines 60-68): walk the remaining
`/`-split tokens, skipping empty tokens; each lookup uses `{}` as default for
an intermediate token and `dflt` for the final token; `.get` on a non-dict
raises `AttributeError`. -/
def getkeypathGo (dflt : PyVal) : PyVal → List String → Except PyErr PyVal
  | v, [] => .ok v
  | v, k :: rest =>
      if k = "" then getkeypathGo dflt v rest
      else
        match v with
        | .dict kvs =>
            getkeypathGo dflt (assocGetD kvs k (if rest.isEmpty then dflt else .dict [])) rest
        | _ => .error .attributeError

/-- Python `getkeypath(d, keypath, default=None)` (`batch.py` lines 34-68). A `None`
default is replaced by `{}` before the walk. -/
def getkeypath (d : PyVal) (keypath : String) (default : PyVal) : Except PyErr PyVal :=
  getkeypathGo (match default with | .none => .dict [] | x => x) d (pySplit '/' keypath)

/-- Core of `setkeypath` for a string keypath (`batch.py` lines 90-95): walk
`keys[:-1]` by strict indexing (`KeyError` when a key is missing, `TypeError`
when the walked value is not a dictionary), then assign at the final key. -/
def setAt : PyVal → List String → PyVal → Except PyErr PyVal
  | .dict kvs, [k], v => .ok (.dict (assocSet kvs k v))
  | .dict kvs, k :: k2 :: rest, v =>
      match assocGet? kvs k with
      | some child => do
          let child' ← setAt child (k2 :: rest) v
          .ok (.dict (assocSet kvs k child'))
      | Option.none => .error .keyError
  | _, [], _ => .error .indexError
  | _, _ :: _, _ => .error .typeError

/-- Python `setkeypath(d, keypath, value)` for a string keypath: split on `/`, drop
empty tokens (`keys[-1]` on an all-empty split raises `IndexError`). -/
def setkeypathStr (d : PyVal) (keypath : String) (v : PyVal) : Except PyErr PyVal :=
  match (pySplit '/' keypath).filter (fun k => k ≠ "") with
  | [] => .error .indexError
  | k :: ks => setAt d (k :: ks) v

/-- Python `setkeypath(d, keypath, ...)` when `keypath` is a dictionary
(`batch.py` lines 86-88): apply each `{keypath: value}` pair in order. -/
def setkeypathAll : PyVal → List (String × PyVal) → Except PyErr PyVal
  | d, [] => .ok d
  | d, (k, v) :: rest => do
      let d' ← setkeypathStr d k v
      setkeypathAll d' rest

/-! ### Numeric tokens and `@range` expansion -/

/-- A numeric token inside `@range(...)`: a Python 2 `int` or `float`
(floats are modelled exactly, as rationals; the tokens of a range expression
are short decimal literals, represented without rounding). -/
inductive PyNum where
  | i (n : Int)
  | f (q : Rat)
  deriving DecidableEq

/-- Value of a list of decimal digit characters. -/
def natOfDigits (l : List Char) : Nat :=
  l.foldl (fun n c => n * 10 + (c.toNat - '0'.toNat)) 0

/-- Strip leading and trailing spaces (Python `int`/`float` accept them). -/
def stripWs (l : List Char) : List Char :=
  ((l.dropWhile (· = ' ')).reverse.dropWhile (· = ' ')).reverse

/-- Split off a leading `+`/`-` sign; `true` means negative. -/
def takeSign : List Char → Bool × List Char
  | '+' :: cs => (false, cs)
  | '-' :: cs => (true, cs)
  | cs => (false, cs)

/-- Python `int(t)`: optional surrounding whitespace, optional sign, one or
more decimal digits; anything else raises `ValueError`. -/
def parsePyInt (t : String) : Except PyErr Int :=
  let (neg, ds) := takeSign (stripWs t.toList)
  if !ds.isEmpty && ds.all Char.isDigit then
    .ok (if neg then -(natOfDigits ds : Int) else (natOfDigits ds : Int))
  else .error .valueError

/-- Split a character list at the first `e`/`E` (exponent marker). -/
def splitExp (l : List Char) : List Char × Option (List Char) :=
  let mant := l.takeWhile (fun c => c ≠ 'e' ∧ c ≠ 'E')
  match l.dropWhile (fun c => c ≠ 'e' ∧ c ≠ 'E') with
  | [] => (mant, Option.none)
  | _ :: rest => (mant, some rest)

/-- Python `float(t)` on the decimal forms `[+-]? digits [. digits] [e[+-]digits]`
with at least one mantissa digit; other forms raise `ValueError`. -/
def parsePyFloat (t : String) : Except PyErr Rat :=
  let (neg, cs) := takeSign (stripWs t.toList)
  let (mant, expPart) := splitExp cs
  let intPart := mant.takeWhile (fun c => c ≠ '.')
  let dotRest := mant.dropWhile (fun c => c ≠ '.')
  let fracPart := dotRest.drop 1
  if intPart.all Char.isDigit && fracPart.all Char.isDigit
      && (!intPart.isEmpty || !fracPart.isEmpty) then
    let mag : Rat :=
      (natOfDigits intPart : Rat) + (natOfDigits fracPart : Rat) / (10 : Rat) ^ fracPart.length
    let signed := if neg then -mag else mag
    match expPart with
    | Option.none => .ok signed
    | some e =>
        let (eneg, eds) := takeSign e
        if !eds.isEmpty && eds.all Char.isDigit then
          let ex : Int := if eneg then -(natOfDigits eds : Int) else (natOfDigits eds : Int)
          .ok (signed * (10 : Rat) ^ ex)
        else .error .valueError
  else .error .valueError

/-- Python `float(t) if '.' in t else int(t)` (`batch.py` line 213). -/
def parsePyNum (t : String) : Except PyErr PyNum :=
  if t.toList.contains '.' then (parsePyFloat t).map .f else (parsePyInt t).map .i

/-- Python addition on numeric tokens (`int + int` stays `int`). -/
def pynumAdd : PyNum → PyNum → PyNum
  | .i a, .i b => .i (a + b)
  | .i a, .f b => .f ((a : Rat) + b)
  | .f a, .i b => .f (a + (b : Rat))
  | .f a, .f b => .f (a + b)

/-- Python subtraction on numeric tokens. -/
def pynumSub : PyNum → PyNum → PyNum
  | .i a, .i b => .i (a - b)
  | .i a, .f b => .f ((a : Rat) - b)
  | .f a, .i b => .f (a - (b : Rat))
  | .f a, .f b => .f (a - b)

/-- Python 2 `range(count)`: `TypeError` unless `count` is an integer;
a negative count gives the empty list. -/
def pyRangeList : PyNum → Except PyErr (List PyNum)
  | .i n => .ok ((List.range n.toNat).map (fun k => .i (k : Int)))
  | .f _ => .error .typeError

/-- The `@range` block of `pathcombos` (`batch.py` lines 210-229), shared by
both embeddings.  Returns `none` when the string is not `@range`-prefixed
(the caller then leaves the value unchanged).  The branches follow the source:
one token `a` gives `range(a)`; two tokens `a, b` give `range(b - a)` shifted
by `bottom = a`; exactly three tokens reach the out-of-bounds `tokens[3]` and
raise `IndexError` (so the `len(tokens) == 3` arm of the source, lines
227-229, is unreachable); four or more tokens use `tokens[3]` as the count. -/
def rangeNums (s : String) : Except PyErr (Option (List PyNum)) :=
  if s.toList.take 6 = "@range".toList then do
    let body := ((s.toList.drop 7).reverse.dropWhile (· = ')')).reverse
    let toks := (splitAux ',' body []).map String.mk
    let nums ← mapE parsePyNum toks
    match nums with
    | [] => .error .indexError
    | [a] => (pyRangeList a).map some
    | [a, b] => do
        let r ← pyRangeList (pynumSub b a)
        .ok (some (r.map (fun v => pynumAdd v a)))
    | [_, _, _] => .error .indexError
    | _ :: _ :: _ :: d :: _ => (pyRangeList d).map some
  else .ok Option.none

/-- A numeric token as a `PyVal`. -/
def pynumToVal : PyNum → PyVal
  | .i n => .int n
  | .f q => .float q

/-! ### The combination generator, generic over the value representation -/

/-- Iteration-set table of `pathcombos`: identifier to (keybase to candidate
value), both insertion-ordered. -/
abbrev Sets (υ : Type) := List (String × List (String × υ))

/-- Python `combosets.setdefault(setname, {}); combosets[setname][keybase] = vardata`
(`batch.py` lines 206, 231). -/
def setsAdd {υ : Type} (cs : Sets υ) (setname keybase : String) (vd : υ) : Sets υ :=
  let cur := (assocGet? cs setname).getD []
  let cs' := if (assocGet? cs setname).isSome then cs else cs ++ [(setname, [])]
  assocSet cs' setname (assocSet cur keybase vd)

/-- One iteration of the `for key in paths` loop of `pathcombos`
(`batch.py` lines 190-231), generic over the value type: `getk` performs
`getkeypath(data, key)`, `rex` the `@range` expansion, and `fresh` models the
`random.getrandbits(128)` fresh-identifier source for bare `@` markers (the
source retries until the drawn identifier is unused; `fresh` receives the
current table so an instantiation can guarantee the same). -/
def markerStep {υ : Type} (fresh : Sets υ → String) (getk : String → Except PyErr υ)
    (rex : υ → Except PyErr υ) (cs : Sets υ) (key : String) : Except PyErr (Sets υ) :=
  let keytokens := pySplit '/' key
  let lastkey := keytokens.getLastD ""
  match lastkey.toList with
  | [] => .error .indexError
  | c :: crest =>
      if c = '@' then do
        let setname := if !crest.isEmpty then lastkey else fresh cs
        let keybase := String.intercalate "/" keytokens.dropLast
        let vardata ← getk key
        let vardata ← rex vardata
        .ok (setsAdd cs setname keybase vardata)
      else .ok cs

/-- The whole `for key in paths` loop, accumulating the iteration-set table. -/
def buildSets {υ : Type} (fresh : Sets υ → String) (getk : String → Except PyErr υ)
    (rex : υ → Except PyErr υ) : List String → Sets υ → Except PyErr (Sets υ)
  | [], cs => .ok cs
  | key :: rest, cs => do
      let cs' ← markerStep fresh getk rex cs key
      buildSets fresh getk rex rest cs'

/-- Python `zip(*lists)`: positional transpose truncated to the shortest list;
`zip()` of no lists is `[]` and `zip(l)` is the list of 1-tuples. -/
def pyZipN {α : Type} : List (List α) → List (List α)
  | [] => []
  | [l] => l.map (fun x => [x])
  | l :: l2 :: ls => List.zipWith (fun x xs => x :: xs) l (pyZipN (l2 :: ls))

/-- Python `itertools.product(*lists)`: the rightmost factor varies fastest. -/
def pyProduct {α : Type} : List (List α) → List (List α)
  | [] => [[]]
  | l :: ls => l.flatMap (fun x => (pyProduct ls).map (fun xs => x :: xs))

/-- Python dict comprehension `{k: v for k, v in ps}`: the first occurrence of
a key fixes its position, a later occurrence overwrites the value. -/
def dictOfPairs {υ : Type} (ps : List (String × υ)) : List (String × υ) :=
  ps.foldl (fun o kv => assocSet o kv.1 kv.2) []

/-- Expansion of one iteration set (`batch.py` lines 241-245):
`list(product([keypath], values))` for every member, then `zip(*...)`.
`iter` is Python iteration over a candidate value (`TypeError` when the
value is not iterable). -/
def buildParts {υ : Type} (iter : υ → Except PyErr (List υ)) (cset : List (String × υ)) :
    Except PyErr (List (List (String × υ))) := do
  let memberLists ← mapE (fun kv => do
    let elems ← iter kv.2
    .ok (elems.map (fun v => (kv.1, v)))) cset
  .ok (pyZipN memberLists)

/-- The combination comprehension of `pathcombos` (`batch.py` lines 235-250):
cross product of the per-set partial-combination lists, concatenation
(`sum(valueset, [])`), then the dict comprehension. -/
def buildCombos {υ : Type} (iter : υ → Except PyErr (List υ)) (csets : Sets υ) :
    Except PyErr (List (List (String × υ))) := do
  let parts ← mapE (fun p => buildParts iter p.2) csets
  .ok ((pyProduct parts).map (fun vs => dictOfPairs vs.flatten))

/-- Python `pathcombos(paths, data)` (`batch.py` lines 138-252), generic over the
value representation: the combination list plus the iteration-set table. -/
def pathcombosG {υ : Type} (fresh : Sets υ → String) (getk : String → Except PyErr υ)
    (rex : υ → Except PyErr υ) (iter : υ → Except PyErr (List υ))
    (paths : List String) : Except PyErr (List (List (String × υ)) × Sets υ) := do
  let csets ← buildSets fresh getk rex paths []
  let combos ← buildCombos iter csets
  .ok (combos, csets)

/-! ### The functional (value-level) instantiation -/

/-- Expansion of `@range` on `PyVal` string values (`batch.py` lines 210-229). -/
def rangeExpand (v : PyVal) : Except PyErr PyVal :=
  match v with
  | .str s => do
      match ← rangeNums s with
      | some nums => .ok (.list (nums.map pynumToVal))
      | Option.none => .ok (.str s)
  | v => .ok v

/-- Python iteration over a value, as materialised by `itertools.product`:
lists yield their elements, strings their one-character strings, dictionaries
their keys; scalars raise `TypeError`. -/
def pyIter : PyVal → Except PyErr (List PyVal)
  | .list l => .ok l
  | .str s => .ok (s.toList.map (fun c => .str (String.mk [c])))
  | .dict kvs => .ok (kvs.map (fun kv => .str kv.1))
  | _ => .error .typeError

/-- Python `pathcombos(paths, data)` on `PyVal` (`batch.py` lines 138-252). -/
def pathcombos (fresh : Sets PyVal → String) (paths : List String) (data : PyVal) :
    Except PyErr (List (List (String × PyVal)) × Sets PyVal) :=
  pathcombosG fresh (fun key => getkeypath data key .none) rangeExpand pyIter paths

mutual

/-- Python `dictpaths(indict, inpath)` (`batch.py` lines 97-136): flatten a nested
dictionary into the insertion-ordered mapping of all leaf keypaths. -/
def dictpaths : PyVal → String → List (String × PyVal)
  | .dict kvs, inpath => dictpathsGo kvs inpath []
  | v, inpath => [(inpath, v)]

/-- The `for key in indict` accumulation loop of `dictpaths`
(`batch.py` lines 125-134). -/
def dictpathsGo : List (String × PyVal) → String → List (String × PyVal) →
    List (String × PyVal)
  | [], _, out => out
  | (k, v) :: rest, inpath, out =>
      dictpathsGo rest inpath
        ((dictpaths v (inpath ++ "/" ++ k)).foldl (fun o kv => assocSet o kv.1 kv.2) out)

end

/-- Python `dictlist(combos, data)` (`batch.py` lines 254-277): one deep copy of
`data` per combination (the identity on pure values; aliasing is studied in
the heap embedding below), updated through `setkeypath`. -/
def dictlist : List (List (String × PyVal)) → PyVal → Except PyErr (List PyVal)
  | [], _ => .ok []
  | combo :: rest, data => do
      let nd ← setkeypathAll data combo
      let ds ← dictlist rest data
      .ok (nd :: ds)

/-- Python `parseconfig(d)` (`batch.py` lines 279-293): iterating the `dictpaths`
dictionary yields its keys. -/
def parseconfig (fresh : Sets PyVal → String) (d : PyVal) : Except PyErr (List PyVal) := do
  let paths := (dictpaths d "").map Prod.fst
  let (combos, _) ← pathcombos fresh paths d
  dictlist combos d

/-- Fresh-identifier source used for concrete runs; never consulted, because
the concrete inputs below contain no bare `@` marker. -/
def fresh0 : Sets PyVal → String := fun _ => "@988"

/-! ### `BatchDict` and instance labels -/

/-- Rendering of a `float` under `str`; no claim exercises float rendering,
so the exact rational is printed. -/
def ratStr (q : Rat) : String := toString q.num ++ "/" ++ toString q.den

mutual

/-- Python `nested_list_string(v)` (`batch.py` lines 17-32): in Python 2
`hasattr(v, '__iter__')` holds for lists and dictionaries (iterating a
dictionary yields its keys, which render as themselves) but not for strings;
non-iterables are rendered with `str`. -/
def nested_list_string : PyVal → String
  | .list l => String.intercalate "-" (nlsList l)
  | .dict kvs => String.intercalate "-" (kvs.map Prod.fst)
  | .str s => s
  | .int n => toString n
  | .float q => ratStr q
  | .none => "None"

/-- Auxiliary: `nested_list_string` mapped over the elements of a list. -/
def nlsList : List PyVal → List String
  | [] => []
  | v :: l => nested_list_string v :: nlsList l

end

/-- The `BatchDict` state (`batch.py` lines 295-300). -/
structure BatchDict where
  d : PyVal
  paths : List (String × PyVal)
  unique : List (List (String × PyVal))
  itsets : Sets PyVal
  combos : List PyVal

/-- Python `BatchDict.__init__` (`batch.py` lines 296-300). -/
def mkBatch (fresh : Sets PyVal → String) (d : PyVal) : Except PyErr BatchDict := do
  let paths := dictpaths d ""
  let (unique, itsets) ← pathcombos fresh (paths.map Prod.fst) d
  let combos ← dictlist unique d
  .ok ⟨d, paths, unique, itsets, combos⟩

/-- Lexicographic string comparison by code point (Python `<=` on `str`). -/
def charListLe : List Char → List Char → Bool
  | [], _ => true
  | _ :: _, [] => false
  | a :: as, b :: bs => if a = b then charListLe as bs else decide (a.toNat < b.toNat)

/-- Insert into an ascending list, after any equal keys (stability). -/
def insortStr (x : String) : List String → List String
  | [] => [x]
  | y :: ys => if charListLe y.toList x.toList then y :: insortStr x ys else x :: y :: ys

/-- Python `sorted` on strings: stable insertion sort, ascending by code
point. -/
def pySortedStr (l : List String) : List String :=
  l.foldl (fun acc x => insortStr x acc) []

/-- Items of one combination `u`, grouped by sorted iteration-set identifier
(`batch.py` lines 306-312): `for set in sorted_sets: for k in
self.itsets[set]: paths.append((k, u[k]))`; both indexings raise `KeyError`
when the key is missing. -/
def itemsFor (itsets : Sets PyVal) (u : List (String × PyVal)) :
    List String → Except PyErr (List (String × PyVal))
  | [] => .ok []
  | s :: rest => do
      let cur ← match assocGet? itsets s with
        | some c => .ok c
        | Option.none => .error .keyError
      let pairs ← mapE (fun kv =>
        match assocGet? u kv.1 with
        | some v => .ok ((kv.1, v) : String × PyVal)
        | Option.none => .error .keyError) cur
      let more ← itemsFor itsets u rest
      .ok (pairs ++ more)

/-- Python `BatchDict.sorted_unique_items` (`batch.py` lines 302-314). -/
def sorted_unique_items (b : BatchDict) : Except PyErr (List (List (String × PyVal))) :=
  mapE (fun u => itemsFor b.itsets u (pySortedStr (b.itsets.map Prod.fst))) b.unique

/-- Python `k.strip('/').replace('/', '.')` (`batch.py` line 336). -/
def dotKey (k : String) : String :=
  String.mk ((((k.toList.dropWhile (· = '/')).reverse.dropWhile (· = '/')).reverse).map
    (fun c => if c = '/' then '.' else c))

/-- Python `BatchDict.hyphenate_changes` (`batch.py` lines 316-341). -/
def hyphenate_changes (b : BatchDict) : Except PyErr (List String) := do
  let items ← sorted_unique_items b
  .ok ((b.combos.zip items).map (fun ci =>
    String.intercalate "-" (ci.2.map (fun kv => dotKey kv.1 ++ "-" ++ nested_list_string kv.2))))

mutual

/-- Whether `key` occurs as a dictionary key anywhere inside a value. -/
def keyInTree (key : String) : PyVal → Bool
  | .dict kvs => keyInKvs key kvs
  | .list l => keyInList key l
  | _ => false

/-- Auxiliary: `keyInTree` over the entries of a dictionary. -/
def keyInKvs (key : String) : List (String × PyVal) → Bool
  | [] => false
  | (k, v) :: rest => k == key || keyInTree key v || keyInKvs key rest

/-- Auxiliary: `keyInTree` over the elements of a list. -/
def keyInList (key : String) : List PyVal → Bool
  | [] => false
  | v :: rest => keyInTree key v || keyInList key rest

end

/-! ### Heap embedding: the same functions under reference semantics

The value-level embedding above cannot express in-place mutation or aliasing.
For the claims about mutation of the input tree, the same Python functions are
translated again over an explicit heap: every dictionary is a mutable cell
addressed by a natural number.  Lists are modelled as immutable values, which
is observation-equivalent here because `batch.py` never mutates a list in
place (its only assignment is `d[keys[-1]] = value` on a dictionary). -/

/-- A heap value.  `newdict` is a freshly allocated empty dictionary that is
unreachable from the heap (the `{}` default created by `getkeypath` for a
missing intermediate key). -/
inductive HV where
  | int (n : Int)
  | float (q : Rat)
  | str (s : String)
  | none
  | list (l : List HV)
  | ref (a : Nat)
  | newdict

/-- The dictionary store: cell address to entry list, plus the next fresh
address. -/
structure Heap where
  cells : List (Nat × List (String × HV))
  next : Nat

/-- Contents of the cell at address `a`. -/
def heapGet (h : Heap) (a : Nat) : Option (List (String × HV)) := assocGet? h.cells a

/-- Overwrite the cell at address `a` (in-place mutation of one dictionary). -/
def heapSet (h : Heap) (a : Nat) (cell : List (String × HV)) : Heap :=
  ⟨assocSet h.cells a cell, h.next⟩

/-- Python `v.get(key, dflt)` under reference semantics: only dictionary cells (and
a fresh `{}` default) support `.get`.  A dangling address cannot arise from a
well-formed heap; it is reported as `TypeError`. -/
def hvGet (h : Heap) (v : HV) (key : String) (dflt : HV) : Except PyErr HV :=
  match v with
  | .ref a =>
      match heapGet h a with
      | some cell => .ok (assocGetD cell key dflt)
      | Option.none => .error .typeError
  | .newdict => .ok dflt
  | _ => .error .attributeError

/-- The token walk of `getkeypath` under reference semantics (read-only). -/
def getkeypathHGo (h : Heap) (dflt : HV) : HV → List String → Except PyErr HV
  | v, [] => .ok v
  | v, k :: rest =>
      if k = "" then getkeypathHGo h dflt v rest
      else do
        let v' ← hvGet h v k (if rest.isEmpty then dflt else .newdict)
        getkeypathHGo h dflt v' rest

/-- Python `getkeypath(d, keypath, default=None)` under reference semantics. -/
def getkeypathH (h : Heap) (d : HV) (keypath : String) (default : HV) : Except PyErr HV :=
  getkeypathHGo h (match default with | .none => .newdict | x => x) d (pySplit '/' keypath)

/-- The walk-and-assign core of `setkeypath` under reference semantics:
`d = d[key]` over `keys[:-1]` (strict indexing), then `d[keys[-1]] = value`
mutates the final cell reached — wherever in the heap that cell lives.
Assigning into a fresh `{}` (`newdict`) writes to an unreachable object, so
the heap is unchanged. -/
def setAtH (h : Heap) : HV → List String → HV → Except PyErr Heap
  | .ref a, [k], v =>
      match heapGet h a with
      | some cell => .ok (heapSet h a (assocSet cell k v))
      | Option.none => .error .typeError
  | .ref a, k :: k2 :: rest, v =>
      match heapGet h a with
      | some cell =>
          match assocGet? cell k with
          | some child => setAtH h child (k2 :: rest) v
          | Option.none => .error .keyError
      | Option.none => .error .typeError
  | .newdict, [_], _ => .ok h
  | .newdict, _ :: _ :: _, _ => .error .keyError
  | _, [], _ => .error .indexError
  | _, _ :: _, _ => .error .typeError

/-- Python `setkeypath` for a string keypath, under reference semantics. -/
def setkeypathStrH (h : Heap) (root : HV) (keypath : String) (v : HV) : Except PyErr Heap :=
  match (pySplit '/' keypath).filter (fun k => k ≠ "") with
  | [] => .error .indexError
  | k :: ks => setAtH h root (k :: ks) v

/-- Python `setkeypath` for a dictionary of `{keypath: value}` pairs, under
reference semantics. -/
def setkeypathAllH (root : HV) : Heap → List (String × HV) → Except PyErr Heap
  | h, [] => .ok h
  | h, (k, v) :: rest => do
      let h' ← setkeypathStrH h root k v
      setkeypathAllH root h' rest

/-- Python `dictpaths` under reference semantics.  The fuel bounds the recursion
depth; a cyclic structure exhausts it (`RecursionError`, as in Python). -/
def dictpathsH (h : Heap) : Nat → HV → String → Except PyErr (List (String × HV))
  | 0, _, _ => .error .recursionError
  | fuel + 1, .ref a, inpath =>
      match heapGet h a with
      | some cell => do
          let pss ← mapE (fun kv => dictpathsH h fuel kv.2 (inpath ++ "/" ++ kv.1)) cell
          .ok (pss.flatten.foldl (fun o kv => assocSet o kv.1 kv.2) [])
      | Option.none => .error .typeError
  | _ + 1, v, inpath => .ok [(inpath, v)]

/-- Python `copy.deepcopy` under reference semantics: every reachable dictionary is
copied into a fresh cell (allocated at `next`), recursively through lists.
`batch.py`'s inputs share no sub-objects, so the memoisation Python performs
for shared references is not modelled. -/
def deepcopyH : Nat → Heap → HV → Except PyErr (Heap × HV)
  | 0, _, _ => .error .recursionError
  | fuel + 1, h, .ref a =>
      match heapGet h a with
      | some cell => do
          let (h', entries) ← cell.foldlM (fun (acc : Heap × List (String × HV)) kv => do
              let (h2, v') ← deepcopyH fuel acc.1 kv.2
              pure (h2, acc.2 ++ [(kv.1, v')])) (h, [])
          .ok (⟨h'.cells ++ [(h'.next, entries)], h'.next + 1⟩, .ref h'.next)
      | Option.none => .error .typeError
  | fuel + 1, h, .list l => do
      let (h', l') ← l.foldlM (fun (acc : Heap × List HV) v => do
          let (h2, v') ← deepcopyH fuel acc.1 v
          pure (h2, acc.2 ++ [v'])) (h, [])
      .ok (h', .list l')
  | _ + 1, h, v => .ok (h, v)

/-- Python iteration over a heap value (`itertools.product` materialises its
arguments). -/
def pyIterH (h : Heap) : HV → Except PyErr (List HV)
  | .list l => .ok l
  | .str s => .ok (s.toList.map (fun c => .str (String.mk [c])))
  | .ref a =>
      match heapGet h a with
      | some cell => .ok (cell.map (fun kv => .str kv.1))
      | Option.none => .error .typeError
  | .newdict => .ok []
  | _ => .error .typeError

/-- A numeric token as a heap value. -/
def pynumToHV : PyNum → HV
  | .i n => .int n
  | .f q => .float q

/-- Expansion of `@range` on heap string values. -/
def rangeExpandH (v : HV) : Except PyErr HV :=
  match v with
  | .str s => do
      match ← rangeNums s with
      | some nums => .ok (.list (nums.map pynumToHV))
      | Option.none => .ok (.str s)
  | v => .ok v

/-- Python `dictlist(combos, data)` under reference semantics: deep copy, then the
`setkeypath` writes, threading the heap. -/
def dictlistH (fuel : Nat) (data : HV) : Heap → List (List (String × HV)) →
    Except PyErr (Heap × List HV)
  | h, [] => .ok (h, [])
  | h, combo :: rest => do
      let (h1, nd) ← deepcopyH fuel h data
      let h2 ← setkeypathAllH nd h1 combo
      let (h3, ds) ← dictlistH fuel data h2 rest
      .ok (h3, nd :: ds)

/-- Python `parseconfig(d)` under reference semantics: the heap-level pipeline
`dictpaths`, `pathcombos`, `dictlist`, returning the final heap and the
instance roots. -/
def parseconfigH (fuel : Nat) (fresh : Sets HV → String) (h : Heap) (d : HV) :
    Except PyErr (Heap × List HV) := do
  let paths ← dictpathsH h fuel d ""
  let (combos, _) ← pathcombosG fresh (fun key => getkeypathH h d key .none)
    rangeExpandH (pyIterH h) (paths.map Prod.fst)
  dictlistH fuel d h combos

/-- Full dereference of a heap value into a pure `PyVal`: the observable
content of a tree, used to compare a tree before and after a run. -/
def resolveH (h : Heap) : Nat → HV → Except PyErr PyVal
  | 0, _ => .error .recursionError
  | fuel + 1, .ref a =>
      match heapGet h a with
      | some cell => do
          let kvs ← mapE (fun kv => do
              let v ← resolveH h fuel kv.2
              .ok ((kv.1, v) : String × PyVal)) cell
          .ok (.dict kvs)
      | Option.none => .error .typeError
  | fuel + 1, .list l => do
      let vs ← mapE (resolveH h fuel) l
      .ok (.list vs)
  | _ + 1, .int n => .ok (.int n)
  | _ + 1, .float q => .ok (.float q)
  | _ + 1, .str s => .ok (.str s)
  | _ + 1, HV.none => .ok PyVal.none
  | _ + 1, .newdict => .ok (.dict [])

/-- Fresh-identifier source for heap-level runs; never consulted below. -/
def fresh0H : Sets HV → String := fun _ => "@988"

/-- Initial heap encoding `{'a': {'@1': [{'x': 0}], 'x': {'@2': [5]}}}`:
cell 0 is the tree root, cell 2 the dictionary `{'x': 0}` stored inside the
candidate list of the `/a/@1` marker. -/
def heapC8 : Heap :=
  ⟨[(0, [("a", .ref 1)]),
    (1, [("@1", .list [.ref 2]), ("x", .ref 3)]),
    (2, [("x", .int 0)]),
    (3, [("@2", .list [.int 5])])], 4⟩

/-! ### Concrete inputs and auxiliary predicates for the claims -/

/-- Configuration whose marker value is the documented range form
`@range(0,1,5)`. -/
def dataC3 : PyVal := .dict [("a", .dict [("@1", .str "@range(0,1,5)")])]

/-- The final `/`-segment of a keypath is nonempty and does not begin with
`@`: such a path is ignored by the marker loop of `pathcombos`. -/
def plainLast (key : String) : Bool :=
  match ((pySplit '/' key).getLastD "").toList with
  | [] => false
  | c :: _ => c != '@'

/-- Whether a keypath carries no iteration marker: its final `/`-segment is
empty or does not start with `@`. -/
def noMarker (p : String) : Bool :=
  match ((pySplit '/' p).getLastD "").toList with
  | [] => true
  | c :: _ => c != '@'

/-- Tree whose two keybases share identifier `@1` with candidate sequences of
different lengths (2 and 3). -/
def dataC2 : PyVal := .dict [("a", .dict [("@1", .list [.int 1, .int 2])]),
    ("b", .dict [("@1", .list [.int 3, .int 4, .int 5])])]

/-- Tree whose two keybases share identifier `@1` with equal-length candidate
sequences. -/
def dataC5 : PyVal := .dict [("a", .dict [("@1", .list [.int 1, .int 2])]),
    ("b", .dict [("@1", .list [.int 3, .int 4])])]

/-- The nonempty `/`-segments of a keypath — exactly the keys walked by
`setkeypath`. -/
def segs (k : String) : List String := (pySplit '/' k).filter (fun t => t ≠ "")

/-- Pure lookup walk along a segment list: `some v` when every segment is
present in nested dictionaries. -/
def walkFound : PyVal → List String → Option PyVal
  | v, [] => some v
  | .dict kvs, t :: ts =>
      match assocGet? kvs t with
      | some child => walkFound child ts
      | Option.none => Option.none
  | _, _ :: _ => Option.none

/-- Symmetric non-interference of two segment lists: neither is a prefix of
the other (equal lists are excluded, every list being a prefix of itself). -/
def segsApart (a b : List String) : Prop :=
  a.isPrefixOf b = false ∧ b.isPrefixOf a = false

/-- Tree with two independent iteration sets, `@1` of size 2 and `@2` of
size 3. -/
def dataC1 : PyVal := .dict [("a", .dict [("@1", .list [.int 1, .int 2])]),
    ("b", .dict [("@2", .list [.int 3, .int 4, .int 5])])]

/-- Tree with overlapping keybases: the `@1` marker's keybase `/a` is a
prefix of the `@2` marker's keybase `/a/b`. -/
def dataC6 : PyVal := .dict [("a", .dict [("b", .dict [("@2", .list [.int 1])]),
    ("@1", .list [.int 0])])]

/-- Tree with one marker `/a/@1` whose candidate list is `[7]`. -/
def dataC7 : PyVal := .dict [("a", .dict [("@1", .list [.int 7])])]

/-- The spec's end-to-end example input
`{'a': {'@2': [0, 1]}, 'b': {'@1': [2, 3]}, 'c': 4}`. -/
def dataC9 : PyVal := .dict [("a", .dict [("@2", .list [.int 0, .int 1])]),
    ("b", .dict [("@1", .list [.int 2, .int 3])]), ("c", .int 4)]

/-- The labels the code produces for `dataC9` under insertion-ordered
dictionaries. -/
def labelsC9 : List String := ["b-2-a-0", "b-3-a-0", "b-2-a-1", "b-3-a-1"]

/-! ### Helper lemmas -/

@[simp] theorem okBind {α β : Type _} (a : α) (f : α → Except PyErr β) :
    (Except.ok a >>= f) = f a := rfl

@[simp] theorem errBind {α β : Type _} (e : PyErr) (f : α → Except PyErr β) :
    ((Except.error e : Except PyErr α) >>= f) = .error e := rfl

@[simp] theorem assocGet?_nil {κ α : Type _} [DecidableEq κ] (k : κ) :
    assocGet? ([] : List (κ × α)) k = Option.none := rfl

@[simp] theorem assocGet?_cons {κ α : Type _} [DecidableEq κ] (k' k : κ) (v : α) (rest) :
    assocGet? ((k', v) :: rest) k = if k' = k then some v else assocGet? rest k := rfl

theorem assocGet?_set_self {κ α : Type _} [DecidableEq κ] (l : List (κ × α)) (k : κ) (v : α) :
    assocGet? (assocSet l k v) k = some v := by
  induction l with
  | nil => simp [assocSet]
  | cons kv rest ih =>
      obtain ⟨k', v'⟩ := kv
      by_cases h : k' = k <;> simp [assocSet, h, ih]

theorem assocGet?_set_ne {κ α : Type _} [DecidableEq κ] (l : List (κ × α)) (k k' : κ) (v : α)
    (h : k' ≠ k) : assocGet? (assocSet l k v) k' = assocGet? l k' := by
  have hk : k ≠ k' := fun hh => h hh.symm
  induction l with
  | nil => simp [assocSet, hk]
  | cons kv rest ih =>
      obtain ⟨k0, v0⟩ := kv
      by_cases h0 : k0 = k
      · subst h0
        simp [assocSet, hk]
      · by_cases h1 : k0 = k' <;> simp [assocSet, h0, h1, ih, h]

theorem mapE_ok_length {α β : Type _} (f : α → Except PyErr β) (l : List α) (r : List β)
    (h : mapE f l = .ok r) : r.length = l.length := by
  induction l generalizing r with
  | nil =>
      simp only [mapE, Except.ok.injEq] at h
      subst h
      rfl
  | cons a l ih =>
      simp only [mapE] at h
      cases hf : f a with
      | error e => rw [hf] at h; simp at h
      | ok b =>
          rw [hf, okBind] at h
          cases hm : mapE f l with
          | error e => rw [hm] at h; simp at h
          | ok bs =>
              rw [hm, okBind] at h
              simp only [Except.ok.injEq] at h
              subst h
              simp [ih bs hm]

theorem mapE_ok_get? {α β : Type _} (f : α → Except PyErr β) (l : List α) (r : List β)
    (h : mapE f l = .ok r) (i : Nat) (a : α) (b : β)
    (ha : l.get? i = some a) (hb : r.get? i = some b) : f a = .ok b := by
  induction l generalizing r i with
  | nil => simp at ha
  | cons a0 l ih =>
      simp only [mapE] at h
      cases hf : f a0 with
      | error e => rw [hf] at h; simp at h
      | ok b0 =>
          rw [hf, okBind] at h
          cases hm : mapE f l with
          | error e => rw [hm] at h; simp at h
          | ok bs =>
              rw [hm, okBind] at h
              simp only [Except.ok.injEq] at h
              subst h
              cases i with
              | zero =>
                  simp only [List.get?] at ha hb
                  simp only [Option.some.injEq] at ha hb
                  subst ha
                  subst hb
                  exact hf
              | succ i =>
                  simp only [List.get?] at ha hb
                  exact ih bs hm i ha hb

theorem dictlist_ok_length (combos : List (List (String × PyVal))) (data : PyVal)
    (r : List PyVal) (h : dictlist combos data = .ok r) : r.length = combos.length := by
  induction combos generalizing r with
  | nil =>
      simp only [dictlist, Except.ok.injEq] at h
      subst h
      rfl
  | cons c cs ih =>
      simp only [dictlist] at h
      cases hs : setkeypathAll data c with
      | error e => rw [hs] at h; simp at h
      | ok nd =>
          rw [hs, okBind] at h
          cases hd : dictlist cs data with
          | error e => rw [hd] at h; simp at h
          | ok ds =>
              rw [hd, okBind] at h
              simp only [Except.ok.injEq] at h
              subst h
              simp [ih ds hd]

theorem dictlist_ok_get? (combos : List (List (String × PyVal))) (data : PyVal)
    (r : List PyVal) (h : dictlist combos data = .ok r) (i : Nat)
    (c : List (String × PyVal)) (inst : PyVal)
    (hc : combos.get? i = some c) (hi : r.get? i = some inst) :
    setkeypathAll data c = .ok inst := by
  induction combos generalizing r i with
  | nil => simp at hc
  | cons c0 cs ih =>
      simp only [dictlist] at h
      cases hs : setkeypathAll data c0 with
      | error e => rw [hs] at h; simp at h
      | ok nd =>
          rw [hs, okBind] at h
          cases hd : dictlist cs data with
          | error e => rw [hd] at h; simp at h
          | ok ds =>
              rw [hd, okBind] at h
              simp only [Except.ok.injEq] at h
              subst h
              cases i with
              | zero =>
                  simp only [List.get?] at hc hi
                  simp only [Option.some.injEq] at hc hi
                  subst hc
                  subst hi
                  exact hs
              | succ i =>
                  simp only [List.get?] at hc hi
                  exact ih ds hd i hc hi

theorem flatMapMap_length {α β γ : Type _} (l1 : List α) (l2 : List β) (f : α → β → γ) :
    (l1.flatMap fun x => l2.map (f x)).length = l1.length * l2.length := by
  induction l1 with
  | nil => simp
  | cons a l ih =>
      simp only [List.flatMap_cons, List.length_append, List.length_map, ih]
      rw [List.length_cons, Nat.succ_mul, Nat.add_comm]

theorem flatMapMap_get? {α β γ : Type _} (l1 : List α) (l2 : List β) (f : α → β → γ)
    (i j : Nat) (a : α) (b : β) (ha : l1.get? i = some a) (hb : l2.get? j = some b) :
    (l1.flatMap fun x => l2.map (f x)).get? (i * l2.length + j) = some (f a b) := by
  induction l1 generalizing i with
  | nil => simp at ha
  | cons a0 l ih =>
      cases i with
      | zero =>
          simp only [List.get?, Option.some.injEq] at ha
          subst ha
          have hj : j < l2.length := by
            by_contra hj
            rw [List.get?_eq_none.mpr (Nat.le_of_not_lt hj)] at hb
            exact Option.noConfusion hb
          rw [List.flatMap_cons, Nat.zero_mul, Nat.zero_add,
            List.get?_append (by simpa using hj), List.get?_map, hb]
          rfl
      | succ i =>
          simp only [List.get?] at ha
          rw [List.flatMap_cons, Nat.succ_mul]
          have harith : i * l2.length + l2.length + j
              = (l2.map (f a0)).length + (i * l2.length + j) := by
            simp [List.length_map]
            omega
          rw [harith, List.get?_append_right (Nat.le_add_right _ _), Nat.add_sub_cancel_left]
          exact ih i ha

theorem zipWith_get?_some {α β γ : Type _} (f : α → β → γ) (l1 : List α) (l2 : List β)
    (i : Nat) (a : α) (b : β) (ha : l1.get? i = some a) (hb : l2.get? i = some b) :
    (List.zipWith f l1 l2).get? i = some (f a b) := by
  induction l1 generalizing l2 i with
  | nil => simp at ha
  | cons a0 l ih =>
      cases l2 with
      | nil => simp at hb
      | cons b0 l2 =>
          cases i with
          | zero =>
              simp only [List.get?, Option.some.injEq] at ha hb
              subst ha
              subst hb
              rfl
          | succ i =>
              simp only [List.get?] at ha hb
              simpa using ih l2 i ha hb

/-- Inversion of a successful `pathcombosG` run into its two stages. -/
theorem pathcombosG_ok_inv {υ : Type} {fresh : Sets υ → String}
    {getk : String → Except PyErr υ} {rex : υ → Except PyErr υ}
    {iter : υ → Except PyErr (List υ)} {paths : List String}
    {combos : List (List (String × υ))} {csets : Sets υ}
    (h : pathcombosG fresh getk rex iter paths = .ok (combos, csets)) :
    buildSets fresh getk rex paths [] = .ok csets ∧ buildCombos iter csets = .ok combos := by
  unfold pathcombosG at h
  cases hb : buildSets fresh getk rex paths [] with
  | error e => rw [hb] at h; simp at h
  | ok cs =>
      rw [hb, okBind] at h
      cases hc : buildCombos iter cs with
      | error e => rw [hc] at h; simp at h
      | ok co =>
          rw [hc, okBind] at h
          simp only [Except.ok.injEq, Prod.mk.injEq] at h
          obtain ⟨h1, h2⟩ := h
          subst h1
          subst h2
          exact ⟨rfl, hc⟩

theorem pyProduct_single {α : Type} (p : List (List α)) :
    pyProduct [p] = p.map (fun x => [x]) := by
  simp only [pyProduct, List.map_cons, List.map_nil]
  exact (List.map_eq_flatMap _ _).symm

theorem pyProduct_pair {α : Type} (p1 p2 : List (List α)) :
    pyProduct [p1, p2] = p1.flatMap (fun a => p2.map (fun b => [a, b])) := by
  have h1 : pyProduct [p1, p2]
      = p1.flatMap (fun x => (pyProduct [p2]).map (fun xs => x :: xs)) := rfl
  rw [h1, pyProduct_single]
  congr 1
  funext a
  rw [List.map_map]
  rfl

/-- Evaluation of `buildCombos` over a single iteration set with exactly two members:
the two candidate lists are zipped positionally. -/
theorem buildCombos_pair_set {idk kb1 kb2 : String} {v1 v2 : PyVal} {l1 l2 : List PyVal}
    (h1 : pyIter v1 = .ok l1) (h2 : pyIter v2 = .ok l2) :
    buildCombos pyIter [(idk, [(kb1, v1), (kb2, v2)])] =
      .ok (List.zipWith (fun a b => dictOfPairs [(kb1, a), (kb2, b)]) l1 l2) := by
  have hparts : buildParts pyIter [(kb1, v1), (kb2, v2)]
      = .ok (List.zipWith (fun a b => [(kb1, a), (kb2, b)]) l1 l2) := by
    simp only [buildParts, mapE, h1, h2, okBind, pyZipN, Except.ok.injEq]
    rw [List.map_map]
    rw [List.zipWith_map]
    rfl
  simp only [buildCombos, mapE, hparts, okBind, Except.ok.injEq]
  rw [pyProduct_single, List.map_map, List.map_zipWith]
  rfl

/-- Evaluation of `buildCombos` over exactly two iteration sets: the cross product of the
two partial-combination lists, first set outermost. -/
theorem buildCombos_two_sets {id1 id2 : String} {cs1 cs2 : List (String × PyVal)}
    {p1 p2 : List (List (String × PyVal))}
    (h1 : buildParts pyIter cs1 = .ok p1) (h2 : buildParts pyIter cs2 = .ok p2) :
    buildCombos pyIter [(id1, cs1), (id2, cs2)] =
      .ok (p1.flatMap (fun a => p2.map (fun b => dictOfPairs (a ++ b)))) := by
  simp only [buildCombos, mapE, h1, h2, okBind, Except.ok.injEq]
  rw [pyProduct_pair, List.map_flatMap]
  congr 1
  funext a
  rw [List.map_map]
  congr 1
  funext b
  simp [dictOfPairs]

/-! ### `splitAux` and keypath-token lemmas -/

theorem splitAux_all_sep (sep : Char) (l : List Char) (h : ∀ c ∈ l, c = sep)
    (acc : List Char) :
    splitAux sep l acc = acc.reverse :: List.replicate l.length [] := by
  induction l generalizing acc with
  | nil => simp [splitAux]
  | cons c cs ih =>
      have hc : c = sep := h c (by simp)
      have h' : ∀ x ∈ cs, x = sep := fun x hx => h x (by simp [hx])
      simp [splitAux, hc, ih h', List.replicate_succ]

theorem getkeypathGo_all_empty (dflt d : PyVal) (ts : List String)
    (h : ∀ t ∈ ts, t = "") : getkeypathGo dflt d ts = .ok d := by
  induction ts with
  | nil => rfl
  | cons t ts ih =>
      have ht : t = "" := h t (by simp)
      have h' : ∀ x ∈ ts, x = "" := fun x hx => h x (by simp [hx])
      simp [getkeypathGo, ht, ih h']

/-! ### Claim C10 -/

/-- C10: for every value `d` and every default, `getkeypath` on a keypath
consisting only of `/` characters (including the empty keypath) splits into
empty tokens only, skips them all, and returns `d` itself — never the
default. -/
theorem getkeypath_all_slashes (d default : PyVal) (s : String)
    (h : ∀ c ∈ s.toList, c = '/') : getkeypath d s default = .ok d := by
  show getkeypathGo _ d (pySplit '/' s) = .ok d
  apply getkeypathGo_all_empty
  intro t ht
  unfold pySplit at ht
  rw [splitAux_all_sep '/' s.toList h []] at ht
  simp only [List.reverse_nil, List.map_cons, List.mem_cons, List.mem_map] at ht
  rcases ht with ht | ⟨l, hl, hlt⟩
  · exact ht
  · rw [← hlt, List.eq_of_mem_replicate hl]

/-- Witness for C10: the empty keypath and `"//"`, on a concrete dictionary
with a non-trivial default. -/
theorem getkeypath_all_slashes_witness :
    getkeypath (.dict [("a", .int 1)]) "" (.int 99) = .ok (.dict [("a", .int 1)]) ∧
    getkeypath (.dict [("a", .int 1)]) "//" (.int 99) = .ok (.dict [("a", .int 1)]) :=
  ⟨getkeypath_all_slashes _ _ _ (by decide), getkeypath_all_slashes _ _ _ (by decide)⟩

/-! ### Claim C3 -/

/-- C3: a three-argument `@range(a,b,n)` never produces `n` evenly spaced
values: the expander evaluates `tokens[3]` on a three-token list
(`batch.py` line 221) and raises `IndexError`, aborting expansion — here at
the module docstring's own example `@range(0,1,5)`. -/
theorem range_three_args_raises :
    rangeNums "@range(0,1,5)" = .error .indexError ∧
    parseconfig fresh0 dataC3 = .error .indexError := ⟨rfl, rfl⟩

/-! ### Claim C4 -/

theorem markerStep_plain {υ : Type} (fresh : Sets υ → String)
    (getk : String → Except PyErr υ) (rex : υ → Except PyErr υ) (cs : Sets υ)
    (key : String) (h : plainLast key = true) :
    markerStep fresh getk rex cs key = .ok cs := by
  unfold plainLast at h
  simp only [markerStep]
  cases hlk : ((pySplit '/' key).getLastD "").toList with
  | nil => rw [hlk] at h; simp at h
  | cons c cr =>
      rw [hlk] at h
      simp only [bne_iff_ne, ne_eq] at h
      simp [h]

theorem buildSets_plain {υ : Type} (fresh : Sets υ → String)
    (getk : String → Except PyErr υ) (rex : υ → Except PyErr υ)
    (paths : List String) (cs : Sets υ) (h : ∀ p ∈ paths, plainLast p = true) :
    buildSets fresh getk rex paths cs = .ok cs := by
  induction paths with
  | nil => rfl
  | cons p ps ih =>
      have hp := markerStep_plain fresh getk rex cs p (h p (by simp))
      have h' : ∀ x ∈ ps, plainLast x = true := fun x hx => h x (by simp [hx])
      simp [buildSets, hp, ih h']

/-- C4 (amended): on a tree with no iteration marker whose leaf keypaths all
end in a nonempty segment, `pathcombos` returns exactly one combination — the
empty one — and `parseconfig` exactly one instance, equal to the input. -/
theorem parseconfig_no_markers (fresh : Sets PyVal → String) (d : PyVal)
    (h : ∀ p ∈ (dictpaths d "").map Prod.fst, plainLast p = true) :
    pathcombos fresh ((dictpaths d "").map Prod.fst) d = .ok ([[]], []) ∧
    parseconfig fresh d = .ok [d] := by
  have hb := buildSets_plain fresh (fun key => getkeypath d key .none) rangeExpand
    ((dictpaths d "").map Prod.fst) [] h
  constructor
  · simp [pathcombos, pathcombosG, hb, buildCombos, mapE, pyProduct, dictOfPairs]
  · simp [parseconfig, pathcombos, pathcombosG, hb, buildCombos, mapE, pyProduct,
      dictOfPairs, dictlist, setkeypathAll]

/-- C4 counterexample: the tree `{'': 5}` contains no iteration marker (no
final segment starts with `@`), yet expansion raises `IndexError`
(`lastkey[0]` on the empty final segment of the keypath `/`) instead of
returning one instance equal to the input. -/
theorem parseconfig_empty_key_raises :
    parseconfig fresh0 (.dict [("", .int 5)]) = .error .indexError ∧
    ((dictpaths (PyVal.dict [("", .int 5)]) "").map Prod.fst).all noMarker = true :=
  ⟨rfl, rfl⟩

/-- Witness for C4 on a marker-free two-level tree. -/
theorem parseconfig_no_markers_witness :
    parseconfig fresh0 (.dict [("a", .dict [("b", .int 1)]), ("c", .int 2)])
      = .ok [.dict [("a", .dict [("b", .int 1)]), ("c", .int 2)]] :=
  (parseconfig_no_markers fresh0 _ (by decide)).2

/-! ### Claim C2 -/

/-- C2 counterexample: with member sequences of different lengths sharing one
identifier, no error is raised — no `UnevenIterationSet` exists anywhere in
the source — and `pathcombos` succeeds with two silently truncated
combinations. -/
theorem pathcombos_uneven_no_error :
    pathcombos fresh0 ["/a/@1", "/b/@1"] dataC2
      = .ok ([[("/a", .int 1), ("/b", .int 3)], [("/a", .int 2), ("/b", .int 4)]],
             [("@1", [("/a", .list [.int 1, .int 2]),
                      ("/b", .list [.int 3, .int 4, .int 5])])]) := rfl

/-- C2 (amended): when two keybases sharing one identifier have candidate
sequences of different lengths, expansion does not raise; `zip` truncates the
set positionally, so the combination count is the minimum of the two
lengths. -/
theorem pathcombos_uneven_truncates (fresh : Sets PyVal → String) (paths : List String)
    (data : PyVal) (combos : List (List (String × PyVal))) (idk kb1 kb2 : String)
    (v1 v2 : PyVal) (l1 l2 : List PyVal)
    (hpc : pathcombos fresh paths data = .ok (combos, [(idk, [(kb1, v1), (kb2, v2)])]))
    (h1 : pyIter v1 = .ok l1) (h2 : pyIter v2 = .ok l2) :
    combos.length = min l1.length l2.length := by
  obtain ⟨-, hbc⟩ := pathcombosG_ok_inv hpc
  rw [buildCombos_pair_set h1 h2] at hbc
  simp only [Except.ok.injEq] at hbc
  subst hbc
  simp [List.length_zipWith]

/-- Witness for C2's truncation law at the concrete uneven input. -/
theorem pathcombos_uneven_truncates_witness :
    ([[("/a", PyVal.int 1), ("/b", PyVal.int 3)],
      [("/a", PyVal.int 2), ("/b", PyVal.int 4)]] : List (List (String × PyVal))).length
      = min 2 3 :=
  pathcombos_uneven_truncates fresh0 ["/a/@1", "/b/@1"] dataC2 _ "@1" "/a" "/b"
    (.list [.int 1, .int 2]) (.list [.int 3, .int 4, .int 5])
    [.int 1, .int 2] [.int 3, .int 4, .int 5] rfl rfl rfl

/-! ### Claim C5 -/

/-- C5: two keybases sharing one non-empty identifier with equal-length
candidate sequences give exactly `n` combinations, the `i`-th carrying the
`i`-th value of both sequences (lockstep zip, not a cross product), and
`dictlist` builds one resolved instance per combination. -/
theorem pathcombos_shared_id_zips (fresh : Sets PyVal → String) (paths : List String)
    (data : PyVal) (combos : List (List (String × PyVal))) (idk kb1 kb2 : String)
    (v1 v2 : PyVal) (l1 l2 : List PyVal) (n : Nat)
    (hpc : pathcombos fresh paths data = .ok (combos, [(idk, [(kb1, v1), (kb2, v2)])]))
    (_hid : 1 < idk.toList.length)
    (h1 : pyIter v1 = .ok l1) (h2 : pyIter v2 = .ok l2)
    (hl1 : l1.length = n) (hl2 : l2.length = n) :
    combos.length = n ∧
    (∀ i a b, l1.get? i = some a → l2.get? i = some b →
        combos.get? i = some (dictOfPairs [(kb1, a), (kb2, b)])) ∧
    (∀ insts, dictlist combos data = .ok insts → insts.length = n) := by
  obtain ⟨-, hbc⟩ := pathcombosG_ok_inv hpc
  rw [buildCombos_pair_set h1 h2] at hbc
  simp only [Except.ok.injEq] at hbc
  subst hbc
  refine ⟨?_, ?_, ?_⟩
  · simp [List.length_zipWith, hl1, hl2]
  · intro i a b ha hb
    exact zipWith_get?_some _ l1 l2 i a b ha hb
  · intro insts hd
    rw [dictlist_ok_length _ _ _ hd]
    simp [List.length_zipWith, hl1, hl2]

/-- Witness for C5 at equal-length shared-identifier sequences: 2 lockstep
combinations, not 4. -/
theorem pathcombos_shared_id_zips_witness :
    ([[("/a", PyVal.int 1), ("/b", PyVal.int 3)],
      [("/a", PyVal.int 2), ("/b", PyVal.int 4)]] : List (List (String × PyVal))).length = 2 :=
  (pathcombos_shared_id_zips fresh0 ["/a/@1", "/b/@1"] dataC5 _ "@1" "/a" "/b"
    (.list [.int 1, .int 2]) (.list [.int 3, .int 4])
    [.int 1, .int 2] [.int 3, .int 4] 2 rfl (by decide) rfl rfl rfl rfl).1

/-! ### Write/read separation: `segs`, `walkFound` -/

/-- Lookup with a default reduces to the found value whatever the default. -/
theorem assocGetD_of_some {κ α : Type _} [DecidableEq κ] {l : List (κ × α)} {k : κ}
    {c : α} (h : assocGet? l k = some c) (dflt : α) : assocGetD l k dflt = c := by
  simp [assocGetD, h]

theorem filter_ne_cons_empty (ts : List String) :
    ("" :: ts).filter (fun t => t ≠ "") = ts.filter (fun t => t ≠ "") := by
  simp

theorem filter_ne_cons_keep (t : String) (ts : List String) (ht : t ≠ "") :
    (t :: ts).filter (fun t => t ≠ "") = t :: ts.filter (fun t => t ≠ "") := by
  simp [ht]

/-- After a successful `setAt` write, walking the same segments finds the
written value. -/
theorem setAt_walkFound (d d' : PyVal) (ks : List String) (v : PyVal)
    (h : setAt d ks v = .ok d') : walkFound d' ks = some v := by
  induction ks generalizing d d' with
  | nil => cases d <;> simp [setAt] at h
  | cons k ks ih =>
      cases d with
      | dict kvs =>
          cases ks with
          | nil =>
              simp only [setAt, Except.ok.injEq] at h
              subst h
              simp [walkFound, assocGet?_set_self]
          | cons k2 ks2 =>
              cases hg : assocGet? kvs k with
              | none => simp [setAt, hg] at h
              | some child =>
                  simp only [setAt, hg] at h
                  cases hs : setAt child (k2 :: ks2) v with
                  | error e => rw [hs] at h; simp at h
                  | ok child' =>
                      rw [hs, okBind] at h
                      simp only [Except.ok.injEq] at h
                      subst h
                      simp [walkFound, assocGet?_set_self, ih child child' hs]
      | int n => simp [setAt] at h
      | float q => simp [setAt] at h
      | str s => simp [setAt] at h
      | none => simp [setAt] at h
      | list l => simp [setAt] at h

/-- A `setAt` write along one segment list does not change what a walk along
a non-interfering segment list sees. -/
theorem setAt_preserve (d d' : PyVal) (ks2 ks : List String) (v2 : PyVal)
    (hset : setAt d ks2 v2 = .ok d')
    (h1 : ks2.isPrefixOf ks = false) (h2 : ks.isPrefixOf ks2 = false) :
    walkFound d' ks = walkFound d ks := by
  induction ks2 generalizing d d' ks with
  | nil => simp [List.isPrefixOf] at h1
  | cons k2 ks2' ih =>
      cases d with
      | dict kvs =>
          cases ks with
          | nil => simp [List.isPrefixOf] at h2
          | cons t ts =>
              by_cases hk : t = k2
              · subst hk
                have h1' : ks2'.isPrefixOf ts = false := by
                  simpa [List.isPrefixOf] using h1
                have h2' : ts.isPrefixOf ks2' = false := by
                  simpa [List.isPrefixOf] using h2
                cases ks2' with
                | nil => simp [List.isPrefixOf] at h1'
                | cons k22 ks22 =>
                    cases hg : assocGet? kvs t with
                    | none => simp [setAt, hg] at hset
                    | some child =>
                        simp only [setAt, hg] at hset
                        cases hs : setAt child (k22 :: ks22) v2 with
                        | error e => rw [hs] at hset; simp at hset
                        | ok child' =>
                            rw [hs, okBind] at hset
                            simp only [Except.ok.injEq] at hset
                            subst hset
                            simp only [walkFound, assocGet?_set_self, hg]
                            exact ih child child' ts hs h1' h2'
              · have hk' : t ≠ k2 := hk
                cases ks2' with
                | nil =>
                    simp only [setAt, Except.ok.injEq] at hset
                    subst hset
                    simp only [walkFound]
                    rw [assocGet?_set_ne kvs k2 t v2 hk']
                | cons k22 ks22 =>
                    cases hg : assocGet? kvs k2 with
                    | none => simp [setAt, hg] at hset
                    | some child =>
                        simp only [setAt, hg] at hset
                        cases hs : setAt child (k22 :: ks22) v2 with
                        | error e => rw [hs] at hset; simp at hset
                        | ok child' =>
                            rw [hs, okBind] at hset
                            simp only [Except.ok.injEq] at hset
                            subst hset
                            simp only [walkFound]
                            rw [assocGet?_set_ne kvs k2 t child' hk']
      | int n => cases ks2' <;> simp [setAt] at hset
      | float q => cases ks2' <;> simp [setAt] at hset
      | str s => cases ks2' <;> simp [setAt] at hset
      | none => cases ks2' <;> simp [setAt] at hset
      | list l => cases ks2' <;> simp [setAt] at hset

/-- Applying a list of writes whose keybases all stay apart from `ks`
preserves what a walk along `ks` finds. -/
theorem setAll_preserve (ps : List (String × PyVal)) (d d' : PyVal) (ks : List String)
    (v : PyVal) (hset : setkeypathAll d ps = .ok d')
    (hfr : ∀ p ∈ ps, segsApart ks (segs p.1))
    (hw : walkFound d ks = some v) : walkFound d' ks = some v := by
  induction ps generalizing d with
  | nil =>
      simp only [setkeypathAll, Except.ok.injEq] at hset
      subst hset
      exact hw
  | cons p ps ih =>
      obtain ⟨k0, v0⟩ := p
      simp only [setkeypathAll] at hset
      cases hs : setkeypathStr d k0 v0 with
      | error e => rw [hs] at hset; simp at hset
      | ok d1 =>
          rw [hs, okBind] at hset
          have hfr0 := hfr (k0, v0) (by simp)
          unfold setkeypathStr at hs
          revert hs
          cases hks : (pySplit '/' k0).filter (fun t => t ≠ "") with
          | nil => intro hs; simp at hs
          | cons s ss =>
              intro hs
              have hap : segsApart ks (s :: ss) := by
                have : segs k0 = s :: ss := by rw [segs, hks]
                rwa [this] at hfr0
              have hw1 : walkFound d1 ks = some v := by
                rw [setAt_preserve d d1 (s :: ss) ks v0 hs hap.2 hap.1]
                exact hw
              exact ih d1 hset (fun q hq => hfr q (by simp [hq])) hw1

/-- After `setkeypath` applies a combination whose keybases are pairwise
apart, walking any written keybase finds its chosen value. -/
theorem setAll_walkFound (ps : List (String × PyVal)) (d d' : PyVal) (k : String)
    (v : PyVal)
    (hpw : ps.Pairwise (fun p q => segsApart (segs p.1) (segs q.1)))
    (hset : setkeypathAll d ps = .ok d') (hmem : (k, v) ∈ ps) :
    walkFound d' (segs k) = some v := by
  induction ps generalizing d with
  | nil => simp at hmem
  | cons p ps ih =>
      obtain ⟨k0, v0⟩ := p
      obtain ⟨hpw0, hpw'⟩ := List.pairwise_cons.mp hpw
      simp only [setkeypathAll] at hset
      cases hs : setkeypathStr d k0 v0 with
      | error e => rw [hs] at hset; simp at hset
      | ok d1 =>
          rw [hs, okBind] at hset
          rcases List.mem_cons.mp hmem with heq | hmem'
          · obtain ⟨hk, hv⟩ := Prod.mk.injEq _ _ _ _ ▸ heq
            subst hk
            subst hv
            unfold setkeypathStr at hs
            revert hs
            cases hks : (pySplit '/' k).filter (fun t => t ≠ "") with
            | nil => intro hs; simp at hs
            | cons s ss =>
                intro hs
                have hsegs : segs k = s :: ss := by rw [segs, hks]
                have hw1 : walkFound d1 (segs k) = some v := by
                  rw [hsegs]
                  exact setAt_walkFound d d1 (s :: ss) v hs
                exact setAll_preserve ps d1 d' (segs k) v hset
                  (fun q hq => hpw0 q hq) hw1
          · exact ih d1 hpw' hset hmem'

/-- A successful `walkFound` determines `getkeypathGo`, whatever the
defaults: the walk continues from the found value. -/
theorem walkFound_getkeypathGo (dflt : PyVal) (ts extra : List String) (d v : PyVal)
    (h : walkFound d (ts.filter (fun t => t ≠ "")) = some v) :
    getkeypathGo dflt d (ts ++ extra) = getkeypathGo dflt v extra := by
  induction ts generalizing d with
  | nil =>
      simp only [List.filter_nil, walkFound, Option.some.injEq] at h
      subst h
      rfl
  | cons t ts ih =>
      by_cases ht : t = ""
      · subst ht
        rw [filter_ne_cons_empty] at h
        simpa [getkeypathGo] using ih d h
      · rw [filter_ne_cons_keep t ts ht] at h
        cases d with
        | dict kvs =>
            cases hg : assocGet? kvs t with
            | none => simp [walkFound, hg] at h
            | some child =>
                simp only [walkFound, hg] at h
                rw [List.cons_append]
                simp only [getkeypathGo]
                rw [if_neg ht, assocGetD_of_some hg]
                exact ih child h
        | int n => simp [walkFound] at h
        | float q => simp [walkFound] at h
        | str s => simp [walkFound] at h
        | none => simp [walkFound] at h
        | list l => simp [walkFound] at h

/-! ### Claim C1 -/

/-- C1: with exactly two iteration sets of distinct identifiers whose
partial-combination lists have lengths `m` and `n`, `pathcombos` yields
exactly `m * n` combinations; the combination at index `i * n + j` merges
the `i`-th partial combination of the first set with the `j`-th of the
second — each combination is one unique pairing — and `dictlist` yields
`m * n` resolved instances. -/
theorem pathcombos_two_sets_cross (fresh : Sets PyVal → String) (paths : List String)
    (data : PyVal) (combos : List (List (String × PyVal))) (id1 id2 : String)
    (cs1 cs2 : List (String × PyVal)) (p1 p2 : List (List (String × PyVal))) (m n : Nat)
    (hpc : pathcombos fresh paths data = .ok (combos, [(id1, cs1), (id2, cs2)]))
    (_hne : id1 ≠ id2)
    (h1 : buildParts pyIter cs1 = .ok p1) (h2 : buildParts pyIter cs2 = .ok p2)
    (hm : p1.length = m) (hn : p2.length = n) :
    combos.length = m * n ∧
    (∀ i j pa pb, p1.get? i = some pa → p2.get? j = some pb →
        combos.get? (i * n + j) = some (dictOfPairs (pa ++ pb))) ∧
    (∀ insts, dictlist combos data = .ok insts → insts.length = m * n) := by
  obtain ⟨-, hbc⟩ := pathcombosG_ok_inv hpc
  rw [buildCombos_two_sets h1 h2] at hbc
  simp only [Except.ok.injEq] at hbc
  subst hbc
  refine ⟨?_, ?_, ?_⟩
  · rw [flatMapMap_length, hm, hn]
  · intro i j pa pb hpa hpb
    have := flatMapMap_get? p1 p2 (fun a b => dictOfPairs (a ++ b)) i j pa pb hpa hpb
    rwa [hn] at this
  · intro insts hd
    rw [dictlist_ok_length _ _ _ hd, flatMapMap_length, hm, hn]

/-- Witness for C1: sets of sizes 2 and 3 yield the six cross-product
combinations. -/
theorem pathcombos_two_sets_cross_witness :
    ([[("/a", PyVal.int 1), ("/b", PyVal.int 3)],
      [("/a", PyVal.int 1), ("/b", PyVal.int 4)],
      [("/a", PyVal.int 1), ("/b", PyVal.int 5)],
      [("/a", PyVal.int 2), ("/b", PyVal.int 3)],
      [("/a", PyVal.int 2), ("/b", PyVal.int 4)],
      [("/a", PyVal.int 2), ("/b", PyVal.int 5)]] :
        List (List (String × PyVal))).length = 2 * 3 :=
  (pathcombos_two_sets_cross fresh0 ["/a/@1", "/b/@2"] dataC1 _ "@1" "@2"
    [("/a", .list [.int 1, .int 2])] [("/b", .list [.int 3, .int 4, .int 5])]
    [[("/a", .int 1)], [("/a", .int 2)]]
    [[("/b", .int 3)], [("/b", .int 4)], [("/b", .int 5)]] 2 3
    rfl (by decide) rfl rfl rfl rfl).1

/-! ### Claim C6 -/

/-- C6 counterexample: `pathcombos` produces the combination
`[("/a/b", 1), ("/a", 0)]`, and in the instance `dictlist` builds from it
the later write at `/a` overwrites the dictionary the earlier write at
`/a/b` went into: reading `/a/b` back raises `AttributeError` instead of
returning the chosen value 1. -/
theorem roundtrip_overlap_fails :
    (dictpaths dataC6 "").map Prod.fst = ["/a/b/@2", "/a/@1"] ∧
    pathcombos fresh0 ["/a/b/@2", "/a/@1"] dataC6
      = .ok ([[("/a/b", .int 1), ("/a", .int 0)]],
             [("@2", [("/a/b", .list [.int 1])]), ("@1", [("/a", .list [.int 0])])]) ∧
    dictlist [[("/a/b", .int 1), ("/a", .int 0)]] dataC6 = .ok [.dict [("a", .int 0)]] ∧
    getkeypath (.dict [("a", .int 0)]) "/a/b" .none = .error .attributeError :=
  ⟨rfl, rfl, rfl, rfl⟩

/-- C6 (amended): for every combination whose keybases' segment lists are
pairwise apart (no keybase a prefix of another), every keybase of the
instance that `dictlist` built from that combination reads back, via
`getkeypath` and for any default, exactly the combination's chosen value. -/
theorem dictlist_roundtrip (data : PyVal) (combos : List (List (String × PyVal)))
    (insts : List PyVal) (i : Nat) (combo : List (String × PyVal)) (inst : PyVal)
    (k : String) (v default : PyVal)
    (hdl : dictlist combos data = .ok insts)
    (hci : combos.get? i = some combo) (hii : insts.get? i = some inst)
    (hpw : combo.Pairwise (fun p q => segsApart (segs p.1) (segs q.1)))
    (hmem : (k, v) ∈ combo) :
    getkeypath inst k default = .ok v := by
  have hset := dictlist_ok_get? combos data insts hdl i combo inst hci hii
  have hw := setAll_walkFound combo data inst k v hpw hset hmem
  show getkeypathGo _ inst (pySplit '/' k) = .ok v
  have h := walkFound_getkeypathGo (match default with | .none => .dict [] | x => x)
    (pySplit '/' k) [] inst v hw
  rwa [List.append_nil] at h

/-- Witness for C6 on `{'a': {'@1': [1, 2]}}`: both instances read back their
chosen values at `/a`. -/
theorem dictlist_roundtrip_witness :
    getkeypath (.dict [("a", .int 1)]) "/a" .none = .ok (.int 1) ∧
    getkeypath (.dict [("a", .int 2)]) "/a" (.int 77) = .ok (.int 2) :=
  ⟨dictlist_roundtrip (.dict [("a", .dict [("@1", .list [.int 1, .int 2])])])
      [[("/a", .int 1)], [("/a", .int 2)]] [.dict [("a", .int 1)], .dict [("a", .int 2)]]
      0 [("/a", .int 1)] (.dict [("a", .int 1)]) "/a" (.int 1) .none
      rfl rfl rfl (by simp) (by simp),
   dictlist_roundtrip (.dict [("a", .dict [("@1", .list [.int 1, .int 2])])])
      [[("/a", .int 1)], [("/a", .int 2)]] [.dict [("a", .int 1)], .dict [("a", .int 2)]]
      1 [("/a", .int 2)] (.dict [("a", .int 2)]) "/a" (.int 2) (.int 77)
      rfl rfl rfl (by simp) (by simp)⟩

/-! ### Claim C7 -/

theorem splitAux_append_sep (sep : Char) (xs ys : List Char) (acc : List Char) :
    splitAux sep (xs ++ sep :: ys) acc = splitAux sep xs acc ++ splitAux sep ys [] := by
  induction xs generalizing acc with
  | nil => simp [splitAux]
  | cons c cs ih =>
      by_cases hc : c = sep <;> simp [splitAux, hc, ih]

theorem splitAux_no_sep (sep : Char) (xs : List Char) (h : ∀ c ∈ xs, c ≠ sep)
    (acc : List Char) : splitAux sep xs acc = [acc.reverse ++ xs] := by
  induction xs generalizing acc with
  | nil => simp [splitAux]
  | cons c cs ih =>
      have hc : c ≠ sep := h c (by simp)
      have h' : ∀ x ∈ cs, x ≠ sep := fun x hx => h x (by simp [hx])
      simp [splitAux, hc, ih h']

theorem pySplit_append_slash (k mkey : String) :
    pySplit '/' (k ++ "/" ++ mkey) = pySplit '/' k ++ pySplit '/' mkey := by
  unfold pySplit
  have hl : (k ++ "/" ++ mkey).toList = k.toList ++ '/' :: mkey.toList := by
    simp
  rw [hl, splitAux_append_sep, List.map_append]

theorem pySplit_no_slash (mkey : String) (h : ∀ c ∈ mkey.toList, c ≠ '/') :
    pySplit '/' mkey = [mkey] := by
  unfold pySplit
  rw [splitAux_no_sep '/' mkey.toList h []]
  rfl

/-- C7 counterexample: after materialisation of `{'a': {'@1': [7]}}` the
instance is `{'a': 7}`: the marker key `@1` occurs nowhere in it, because the
write at the stripped keybase `/a` replaced the dictionary holding the
marker.  The marker key is not left orphaned alongside the written value. -/
theorem marker_key_not_orphaned :
    parseconfig fresh0 dataC7 = .ok [.dict [("a", .int 7)]] ∧
    keyInTree "@1" (.dict [("a", .int 7)]) = false := ⟨rfl, rfl⟩

/-- C7 (amended): the combination value is written at the keybase — the
marker's path with the marker segment stripped — and the write replaces the
dictionary that contained the marker key: the keybase reads back exactly the
written value, and (when that value is not itself a dictionary) reading the
marker's own path `keybase/marker` raises `AttributeError`.  The marker key
is removed with its parent dictionary, not orphaned beside the value. -/
theorem marker_key_replaced (data : PyVal) (combo : List (String × PyVal)) (inst : PyVal)
    (k mkey : String) (v default : PyVal)
    (hset : setkeypathAll data combo = .ok inst)
    (hpw : combo.Pairwise (fun p q => segsApart (segs p.1) (segs q.1)))
    (hmem : (k, v) ∈ combo)
    (hmk1 : mkey ≠ "") (hmk2 : ∀ c ∈ mkey.toList, c ≠ '/')
    (hvd : ∀ kvs, v ≠ .dict kvs) :
    getkeypath inst k default = .ok v ∧
    getkeypath inst (k ++ "/" ++ mkey) default = .error .attributeError := by
  have hw := setAll_walkFound combo data inst k v hpw hset hmem
  constructor
  · show getkeypathGo _ inst (pySplit '/' k) = .ok v
    have h := walkFound_getkeypathGo (match default with | .none => .dict [] | x => x)
      (pySplit '/' k) [] inst v hw
    rwa [List.append_nil] at h
  · show getkeypathGo _ inst (pySplit '/' (k ++ "/" ++ mkey)) = .error .attributeError
    rw [pySplit_append_slash, pySplit_no_slash mkey hmk2]
    rw [walkFound_getkeypathGo (match default with | .none => .dict [] | x => x)
      (pySplit '/' k) [mkey] inst v hw]
    cases v with
    | dict kvs => exact absurd rfl (hvd kvs)
    | int n => simp [getkeypathGo, hmk1]
    | float q => simp [getkeypathGo, hmk1]
    | str s => simp [getkeypathGo, hmk1]
    | none => simp [getkeypathGo, hmk1]
    | list l => simp [getkeypathGo, hmk1]

/-- Witness for C7 at `{'a': {'@1': [7]}}`: the instance reads 7 at the
keybase `/a` and raises `AttributeError` at the marker path `/a/@1`. -/
theorem marker_key_replaced_witness :
    getkeypath (.dict [("a", .int 7)]) "/a" .none = .ok (.int 7) ∧
    getkeypath (.dict [("a", .int 7)]) ("/a" ++ "/" ++ "@1") .none
      = .error .attributeError :=
  marker_key_replaced dataC7 [("/a", .int 7)] (.dict [("a", .int 7)]) "/a" "@1"
    (.int 7) .none rfl (by simp) (by simp) (by decide) (by decide)
    (fun kvs h => PyVal.noConfusion h)

/-! ### Claim C8 -/

/-- C8: expansion can mutate the original tree.  On the tree
`{'a': {'@1': [{'x': 0}], 'x': {'@2': [5]}}}` (heap `heapC8`, original root
cell 0, the inner `{'x': 0}` at cell 2) the combination holds a reference to
the original sub-dictionary `{'x': 0}`; `dictlist`'s `setkeypath` writes that
reference into the deep copy at the keybase `/a`, and the next write, at the
overlapping keybase `/a/x`, walks through the alias and assigns `x = 5`
inside the original tree: resolving the input root after the run differs
from before. -/
theorem parseconfig_mutates_input :
    resolveH heapC8 20 (.ref 0)
      = .ok (.dict [("a", .dict [("@1", .list [.dict [("x", .int 0)]]),
          ("x", .dict [("@2", .list [.int 5])])])]) ∧
    (parseconfigH 20 fresh0H heapC8 (.ref 0)).map (fun r => resolveH r.1 20 (.ref 0))
      = .ok (.ok (.dict [("a", .dict [("@1", .list [.dict [("x", .int 5)]]),
          ("x", .dict [("@2", .list [.int 5])])])])) ∧
    (.dict [("a", .dict [("@1", .list [.dict [("x", .int 0)]]),
        ("x", .dict [("@2", .list [.int 5])])])] : PyVal)
      ≠ .dict [("a", .dict [("@1", .list [.dict [("x", .int 5)]]),
          ("x", .dict [("@2", .list [.int 5])])])] :=
  ⟨rfl, rfl, by simp⟩

/-! ### Claim C9 -/

/-- C9 counterexample: on the documented example the labels come out as
`["b-2-a-0", "b-3-a-0", "b-2-a-1", "b-3-a-1"]`, not the claimed
`["b-2-a-0", "b-2-a-1", "b-3-a-0", "b-3-a-1"]`: `sorted_unique_items` sorts
identifiers only within each label, while the order of the labels follows
the combination order, i.e. the iteration-set table order (`@2` is
enumerated first, so set `@1` varies fastest) — `hyphenate_changes` never
sorts the combinations themselves. -/
theorem hyphenate_order_differs :
    (mkBatch fresh0 dataC9).bind hyphenate_changes = .ok labelsC9 ∧
    labelsC9 ≠ ["b-2-a-0", "b-2-a-1", "b-3-a-0", "b-3-a-1"] := ⟨rfl, by decide⟩

/-- C9 (amended): expansion of the example yields exactly 4 instances, and
`hyphenate_changes` yields exactly the four claimed labels but in the order
`["b-2-a-0", "b-3-a-0", "b-2-a-1", "b-3-a-1"]` (a permutation of the
claimed list): set `@2`, whose marker is enumerated first, is the outer
loop; within each label identifier `1` sorts before `2`. -/
theorem hyphenate_example :
    (mkBatch fresh0 dataC9).map (fun b => b.combos.length) = .ok 4 ∧
    (mkBatch fresh0 dataC9).bind hyphenate_changes = .ok labelsC9 ∧
    labelsC9.Perm ["b-2-a-0", "b-2-a-1", "b-3-a-0", "b-3-a-1"] :=
  ⟨rfl, rfl, by decide⟩

end Pybatch
